import Mathlib

/-!
# GoTorrent — verification of the natural-language specification

Shallow embedding, in Lean 4, of the parts of the GoTorrent BitTorrent
client that the specification talks about: the rarest-first piece picker
(`src/client/piecePicker/piecePicker.cpp`), the piece repository bitfield
(`src/client/pieceRepository/pieceRepository.cpp`), the multi-file range
walk of the disk storage (`src/client/torrentStorage/diskTorrentStorage.cpp`),
the per-peer download state machine (`src/peer/peer.cpp`), the framed
transport read loop (`src/peer/peerConnection.cpp`), the tit-for-tat
choking pass (`src/client/chokingAlgorithm/titForTatChoking.h`) and the
tracker URL builder (`src/tracker/tracker.cpp`).

C++ `size_t`/`uint32_t` values are modelled as `Nat`; wherever the source
relies on the value range of a machine integer the theorem carries the
corresponding bound as an explicit hypothesis.  Byte vectors
(`std::vector<uint8_t>`) are `List Nat` with every element below 256 where
it matters.  Fallible operations (`throw`) return `Except String` or
`Option`; an out-of-bounds `std::vector::operator[]` access is modelled as
a checked access that fails.
-/

namespace GoTorrent

/-- `SIZE_MAX`, the initial value of `minAvailability` in
`PiecePicker::pickPiece` (`std::numeric_limits<size_t>::max()`). -/
def SIZE_MAX : Nat := 2 ^ 64 - 1

/-- The standard block size, `static constexpr uint32_t BLOCK_SIZE = 16384`
(both `src/peer/peer.cpp` and `src/peer/peerConnection.cpp`). -/
def BLOCK_SIZE : Nat := 16384

namespace PiecePicker

/-- `PiecePicker::hasPiece` (piecePicker.cpp lines 137-142): byte index is
`index / 8`, bit index `7 - (index % 8)`; an index whose byte lies at or
past the end of the bitfield reports `false`, otherwise the bit is tested
with a bitwise AND. -/
def hasPiece (bitfield : List Nat) (index : Nat) : Bool :=
  let byteIndex := index / 8
  let bitIndex := 7 - (index % 8)
  if byteIndex ≥ bitfield.length then false
  else Nat.land (bitfield.getD byteIndex 0) (1 <<< bitIndex) != 0

/-- The mutable state of a `PiecePicker` (piecePicker.h): the number of
pieces, the availability vector (resized to `numPiecesInTorrent` zeros in
the constructor) and the in-flight set (a `std::set<size_t>`, modelled as
a list). -/
structure State where
  numPiecesInTorrent : Nat
  pieceAvailability : List Nat
  inFlightPieces : List Nat
  deriving Repr, DecidableEq

/-- The loop body of `PiecePicker::processBitfield` run over all piece
indices below `n`.  The entries of `pieceAvailability_` are `size_t`, so
the increment `pieceAvailability_[i]++` wraps at `2^64`; the wrap is kept
explicit. -/
def bumpAvail (bitfield : List Nat) (n : Nat) (av : List Nat) : List Nat :=
  (List.range n).foldl
    (fun av i =>
      if hasPiece bitfield i then av.set i ((av.getD i 0 + 1) % 2 ^ 64) else av)
    av

/-- The loop body of `PiecePicker::processPeerDisconnect` run over all
piece indices below `n`. -/
def decAvail (bitfield : List Nat) (n : Nat) (av : List Nat) : List Nat :=
  (List.range n).foldl
    (fun av i =>
      if hasPiece bitfield i ∧ av.getD i 0 > 0 then av.set i (av.getD i 0 - 1)
      else av)
    av

/-- `PiecePicker::processBitfield` (lines 16-23): for every piece index
`i < numPiecesInTorrent`, add 1 to `pieceAvailability[i]` when the
bitfield has bit `i`. -/
def processBitfield (st : State) (bitfield : List Nat) : State :=
  { st with
    pieceAvailability :=
      bumpAvail bitfield st.numPiecesInTorrent st.pieceAvailability }

/-- `PiecePicker::processPeerDisconnect` (lines 31-38): for every piece
index `i < numPiecesInTorrent`, subtract 1 from `pieceAvailability[i]`
when the bitfield has bit `i` and the entry is positive. -/
def processPeerDisconnect (st : State) (bitfield : List Nat) : State :=
  { st with
    pieceAvailability :=
      decAvail bitfield st.numPiecesInTorrent st.pieceAvailability }

/-- One iteration of the candidate-collection loop of
`PiecePicker::pickPiece` (lines 74-95), acting on the accumulator
`(candidates, minAvailability)`. -/
def pickStep (st : State) (peerBitfield myBitfield : List Nat)
    (acc : List Nat × Nat) (i : Nat) : List Nat × Nat :=
  if hasPiece myBitfield i then acc
  else if st.inFlightPieces.contains i then acc
  else if hasPiece peerBitfield i then
    let rarity := st.pieceAvailability.getD i 0
    if rarity < acc.2 then ([i], rarity)
    else if rarity = acc.2 then (acc.1 ++ [i], acc.2)
    else acc
  else acc

/-- `PiecePicker::pickPiece` (lines 65-107): collect the rarest candidate
pieces the peer has, we lack and that are not in flight; if none, return
`none`; otherwise select `candidates[0]`, insert it into the in-flight
set and return it. -/
def pickPiece (st : State) (peerBitfield myBitfield : List Nat) :
    Option Nat × State :=
  let out := (List.range st.numPiecesInTorrent).foldl
    (pickStep st peerBitfield myBitfield) ([], SIZE_MAX)
  match out.1 with
  | [] => (none, st)
  | selected :: _ =>
      (some selected, { st with inFlightPieces := selected :: st.inFlightPieces })

/-- The candidate set `S` of `pickPiece`: indices below the piece count
that the peer has, we lack, and that are not in flight. -/
def isCandidate (st : State) (peerBitfield myBitfield : List Nat) (i : Nat) : Bool :=
  decide (i < st.numPiecesInTorrent) &&
    !hasPiece myBitfield i && !st.inFlightPieces.contains i &&
    hasPiece peerBitfield i

/-- Invariant of the candidate-collection loop of `pickPiece` after the
indices `0 .. n-1` have been scanned: an empty candidate list means no
candidate was seen (and the minimum is still `SIZE_MAX`); otherwise the
head of the list is the least candidate index realising the minimum
availability seen so far. -/
def pickInv (st : State) (pbf mbf : List Nat) (n : Nat) : List Nat × Nat → Prop
  | ([], m) => m = SIZE_MAX ∧ ∀ i, i < n → isCandidate st pbf mbf i = false
  | (k :: _, m) =>
      k < n ∧ isCandidate st pbf mbf k = true ∧
      st.pieceAvailability.getD k 0 = m ∧
      (∀ j, j < n → isCandidate st pbf mbf j = true →
        m ≤ st.pieceAvailability.getD j 0) ∧
      (∀ j, j < n → isCandidate st pbf mbf j = true →
        st.pieceAvailability.getD j 0 = m → k ≤ j)

end PiecePicker

namespace DiskTorrentStorage

/-- An entry of the files table of `DiskTorrentStorage` (diskTorrentStorage.h):
declared length, running global offset, and — standing for the bytes of the
file on disk — its contents. -/
structure FileEntry where
  length : Nat
  globalOffset : Nat
  data : List Nat
  deriving Repr, DecidableEq

/-- The loop of `processFileRange` (diskTorrentStorage.cpp lines 241-280)
instantiated with the `readOp` of `DiskTorrentStorage::readBlock`: walk the
files table, and for each file containing the current global position read
`chunk = min(bytesRemaining, file.length - localOffset)` bytes at
`localOffset = currentGlobal - file.globalOffset`, appending them to the
output buffer.  Returns the bytes read and the final `bytesRemaining`. -/
def readWalk : List FileEntry → Nat → Nat → List Nat × Nat
  | [], _, bytesRemaining => ([], bytesRemaining)
  | f :: rest, currentGlobal, bytesRemaining =>
    if bytesRemaining = 0 then ([], 0)
    else
      let fileStart := f.globalOffset
      let fileEnd := fileStart + f.length
      if fileStart ≤ currentGlobal ∧ currentGlobal < fileEnd then
        let localOffset := currentGlobal - fileStart
        let chunk := min bytesRemaining (f.length - localOffset)
        let out := readWalk rest (currentGlobal + chunk) (bytesRemaining - chunk)
        ((f.data.drop localOffset).take chunk ++ out.1, out.2)
      else readWalk rest currentGlobal bytesRemaining

/-- `processFileRange` for a read: if any bytes of the range remain after
the walk, the operation fails (`throw DiskStorageError("Operation
incomplete...")`). -/
def processFileRangeRead (files : List FileEntry) (globalOffset len : Nat) :
    Except String (List Nat) :=
  let out := readWalk files globalOffset len
  if out.2 > 0 then .error "Operation incomplete" else .ok out.1

/-- The loop of `processFileRange` instantiated with the `writeOp` of
`DiskTorrentStorage::writePiece`: for each file containing the current
global position overwrite `chunk` bytes of its contents at `localOffset`
with the next `chunk` bytes of the remaining data (`dataOffset` in the
source is represented by passing the not-yet-written tail `pending`). -/
def writeWalk : List FileEntry → Nat → List Nat → List FileEntry × Nat
  | [], _, pending => ([], pending.length)
  | f :: rest, currentGlobal, pending =>
    if pending.length = 0 then (f :: rest, 0)
    else
      let fileStart := f.globalOffset
      let fileEnd := fileStart + f.length
      if fileStart ≤ currentGlobal ∧ currentGlobal < fileEnd then
        let localOffset := currentGlobal - fileStart
        let chunk := min pending.length (f.length - localOffset)
        let newData := f.data.take localOffset ++ pending.take chunk ++
          f.data.drop (localOffset + chunk)
        let out := writeWalk rest (currentGlobal + chunk) (pending.drop chunk)
        ({ f with data := newData } :: out.1, out.2)
      else
        let out := writeWalk rest currentGlobal pending
        (f :: out.1, out.2)

/-- `processFileRange` for a write. -/
def processFileRangeWrite (files : List FileEntry) (globalOffset : Nat)
    (data : List Nat) : Except String (List FileEntry) :=
  let out := writeWalk files globalOffset data
  if out.2 > 0 then .error "Operation incomplete" else .ok out.1

/-- `DiskTorrentStorage::writePiece` (lines 282-302): write `data` on the
global range starting at `pieceIndex * pieceLength`. -/
def writePiece (files : List FileEntry) (pieceLength pieceIndex : Nat)
    (data : List Nat) : Except String (List FileEntry) :=
  processFileRangeWrite files (pieceIndex * pieceLength) data

/-- `DiskTorrentStorage::readBlock` (lines 306-329): read `len` bytes of
the global range starting at `pieceIndex * pieceLength + begin`. -/
def readBlock (files : List FileEntry) (pieceLength pieceIndex begin len : Nat) :
    Except String (List Nat) :=
  processFileRangeRead files (pieceIndex * pieceLength + begin) len

/-- Well-formedness of a files table built by
`DiskTorrentStorage::initialize`, stated from running offset `off`: each
entry's global offset is the sum of the lengths before it, and the on-disk
contents of each file have the declared length (the files are
pre-allocated by `createFileStructure`). -/
def contiguousFrom : Nat → List FileEntry → Prop
  | _, [] => True
  | off, f :: rest =>
      f.globalOffset = off ∧ f.data.length = f.length ∧
        contiguousFrom (off + f.length) rest

/-- Total number of bytes of the files table. -/
def totalLen (files : List FileEntry) : Nat := (files.map (·.length)).sum

/-- The concatenation of all file contents in table order. -/
def flattenData (files : List FileEntry) : List Nat :=
  (files.map (·.data)).flatten

end DiskTorrentStorage

namespace PieceRepository

/-- `PieceRepository::havePiece` (pieceRepository.cpp lines 45-50): byte
index `index / 8`; out-of-range byte positions report `false`; otherwise
bit `7 - (index % 8)` of the byte is tested with a bitwise AND. -/
def havePiece (myBitfield : List Nat) (index : Nat) : Bool :=
  let byteIndex := index / 8
  if byteIndex ≥ myBitfield.length then false
  else Nat.land (myBitfield.getD byteIndex 0) (1 <<< (7 - (index % 8))) != 0

/-- `PieceRepository::updateBitfield` (lines 73-79): when the byte position
is inside the bitfield, OR bit `7 - (index % 8)` into byte `index / 8`;
otherwise do nothing. -/
def updateBitfield (myBitfield : List Nat) (index : Nat) : List Nat :=
  let byteIndex := index / 8
  if byteIndex < myBitfield.length then
    myBitfield.set byteIndex
      (Nat.lor (myBitfield.getD byteIndex 0) (1 <<< (7 - (index % 8))))
  else myBitfield

/-- `PieceRepository::savePiece` (lines 67-71): write the piece through the
storage and then set its bit in the local bitfield.  A storage failure
propagates and leaves the bitfield untouched. -/
def savePiece (files : List DiskTorrentStorage.FileEntry) (pieceLength : Nat)
    (myBitfield : List Nat) (index : Nat) (data : List Nat) :
    Except String (List DiskTorrentStorage.FileEntry × List Nat) :=
  match DiskTorrentStorage.writePiece files pieceLength index data with
  | .error e => .error e
  | .ok fs => .ok (fs, updateBitfield myBitfield index)

end PieceRepository

namespace PeerConn

/-- `PendingRequest` (peer.h lines 26-30): a block request in flight. -/
structure PendingRequest where
  pieceIndex : Nat
  begin : Nat
  length : Nat
  deriving Repr, DecidableEq

/-- The download-side state of the `PeerConnection` of peer.cpp:
the protocol booleans, the request pipeline, the current piece assignment
(`nextPieceIndex_`, `nextBlockOffset_`, the size of
`currentPieceBuffer_`), the two bitfields and the torrent geometry. -/
structure State where
  peerChoking : Bool
  amInterested : Bool
  bitfieldUpdated : Bool
  inFlightRequests : List PendingRequest
  nextPieceIndex : Nat
  nextBlockOffset : Nat
  currentPieceBufferSize : Nat
  bitfield : List Nat
  myBitfield : List Nat
  pieceLength : Nat
  totalLength : Nat
  numPieces : Nat
  deriving Repr, DecidableEq

/-- `PeerConnection::hasPiece` (peer.cpp lines 772-784). -/
def hasPiece (bitfield : List Nat) (pieceIndex : Nat) : Bool :=
  let byteIndex := pieceIndex / 8
  let bitIndex := 7 - (pieceIndex % 8)
  if byteIndex ≥ bitfield.length then false
  else Nat.land (bitfield.getD byteIndex 0) (1 <<< bitIndex) != 0

/-- `PeerConnection::clientHasPiece` (lines 883-893): the same bit test on
the client's own bitfield. -/
def clientHasPiece (st : State) (pieceIndex : Nat) : Bool :=
  let byteIndex := pieceIndex / 8
  let bitIndex := 7 - (pieceIndex % 8)
  if byteIndex ≥ st.myBitfield.length then false
  else Nat.land (st.myBitfield.getD byteIndex 0) (1 <<< bitIndex) != 0

/-- `PeerConnection::handleChoke` (peer.cpp lines 679-695): set
`peerChoking_`, and — when requests were pending — clear
`inFlightRequests_` and then read `inFlightRequests_[0]` of the vector
that was just cleared.  The out-of-bounds `operator[]` access is modelled
as a checked access, so the non-empty case fails. -/
def handleChoke (st : State) : Option State :=
  let st1 := { st with peerChoking := true }
  if st1.inFlightRequests.isEmpty then some st1
  else
    let st2 := { st1 with inFlightRequests := [] }
    match st2.inFlightRequests[0]? with
    | none => none
    | some r =>
        some { st2 with nextPieceIndex := r.pieceIndex,
                        nextBlockOffset := r.begin }

/-- `PeerConnection::handleUnchoke` (lines 704-707). -/
def handleUnchoke (st : State) : State := { st with peerChoking := false }

/-- `MAX_PIPELINE_SIZE` (peer.h line 284). -/
def MAX_PIPELINE_SIZE : Nat := 5

/-- The search of `requestPiece` (peer.cpp lines 558-583): the first piece
index the peer has and the client lacks. -/
def findWantedPiece (st : State) : Option Nat :=
  (List.range st.numPieces).find?
    (fun i => hasPiece st.bitfield i && !clientHasPiece st i)

/-- The "true length of this piece" computation of `requestPiece`
(peer.cpp lines 575-579): `pieceLength` unless `index·pieceLength +
pieceLength` overshoots `totalLength`, in which case the remainder. -/
def pieceBufferSize (pieceLength totalLength i : Nat) : Nat :=
  if i * pieceLength + pieceLength > totalLength then
    totalLength - i * pieceLength
  else pieceLength

/-- Lines 553-595 of `requestPiece`: when `nextBlockOffset_ == 0`, search
for a piece to download and size `currentPieceBuffer_`; `none` models the
`!foundPiece` early return. -/
def assignPieceIfNeeded (st : State) : Option State :=
  if st.nextBlockOffset = 0 then
    match findWantedPiece st with
    | none => none
    | some i =>
        some { st with nextPieceIndex := i,
                       currentPieceBufferSize :=
                         pieceBufferSize st.pieceLength st.totalLength i }
  else some st

/-- The `while (inFlightRequests_.size() < MAX_PIPELINE_SIZE)` loop of
`PeerConnection::requestPiece` (peer.cpp lines 551-643), with the
REQUEST messages sent collected in order.  Every iteration either returns
or appends one request, so the pipeline bound makes
`MAX_PIPELINE_SIZE + 1` units of fuel enough for the loop to reach one of
its `return` statements or fail its condition; the fuel-exhausted branch
coincides with the failed-condition result. -/
def requestPieceLoop : Nat → State → List PendingRequest →
    State × List PendingRequest
  | 0, st, sent => (st, sent)
  | Nat.succ fuel, st, sent =>
    if st.inFlightRequests.length < MAX_PIPELINE_SIZE then
      match assignPieceIfNeeded st with
      | none => ({ st with bitfieldUpdated := false }, sent)
      | some st1 =>
        if st1.nextBlockOffset ≥ st1.currentPieceBufferSize then
          ({ st1 with bitfieldUpdated := false }, sent)
        else if st1.currentPieceBufferSize = 0 then
          ({ st1 with nextBlockOffset := 0 }, sent)
        else
          let blockLength :=
            if st1.nextBlockOffset + BLOCK_SIZE > st1.pieceLength then
              st1.pieceLength - st1.nextBlockOffset
            else BLOCK_SIZE
          requestPieceLoop fuel
            { st1 with
              inFlightRequests := st1.inFlightRequests ++
                [⟨st1.nextPieceIndex, st1.nextBlockOffset, blockLength⟩],
              nextBlockOffset := st1.nextBlockOffset + blockLength }
            (sent ++ [⟨st1.nextPieceIndex, st1.nextBlockOffset, blockLength⟩])
    else (st, sent)

/-- `PeerConnection::requestPiece` (lines 541-644): nothing is requested
while `bitfieldUpdated_` is false; otherwise the pipeline-filling loop
runs. -/
def requestPiece (st : State) : State × List PendingRequest :=
  if !st.bitfieldUpdated then (st, [])
  else requestPieceLoop (MAX_PIPELINE_SIZE + 1) st []

/-- `PeerConnection::checkAndSendInterested` (lines 650-663): when not yet
interested and the peer has a piece the client lacks, become interested
(an INTERESTED message is sent on this transition). -/
def checkAndSendInterested (st : State) : State :=
  if st.amInterested then st
  else if (List.range st.numPieces).any
      (fun i => hasPiece st.bitfield i && !clientHasPiece st i) then
    { st with amInterested := true }
  else st

/-- `PeerConnection::doAction` (lines 520-530): evaluate interest, then
fill the request pipeline when interested and unchoked. -/
def doAction (st : State) : State × List PendingRequest :=
  let st1 := checkAndSendInterested st
  if st1.amInterested && !st1.peerChoking then requestPiece st1
  else (st1, [])

/-- The state of the specification's pipeline scenario just before the
UNCHOKE message arrives: peer has pieces {0,1,2,3} (bitfield `0xF0`), the
client has none, `piece_length = 16384 = BLOCK_SIZE`,
`total_length = 65536`, empty pipeline. -/
def c4Scenario : State :=
  { peerChoking := true, amInterested := true, bitfieldUpdated := true,
    inFlightRequests := [], nextPieceIndex := 0, nextBlockOffset := 0,
    currentPieceBufferSize := 0, bitfield := [240], myBitfield := [0],
    pieceLength := 16384, totalLength := 65536, numPieces := 4 }

/-- The state of the specification's choke scenario: three requests in
flight for piece 4 at offsets 0, 16384 and 32768, the next block offset
at 49152. -/
def c3Scenario : State :=
  { peerChoking := false, amInterested := true, bitfieldUpdated := true,
    inFlightRequests := [⟨4, 0, 16384⟩, ⟨4, 16384, 16384⟩, ⟨4, 32768, 16384⟩],
    nextPieceIndex := 4, nextBlockOffset := 49152,
    currentPieceBufferSize := 65536, bitfield := [255], myBitfield := [0],
    pieceLength := 65536, totalLength := 524288, numPieces := 8 }

end PeerConn

namespace Transport

/-- The 4-byte big-endian length prefix, as `ntohl` reads the header bytes
(`peerConnection.cpp` lines 438-440). -/
def beUint32 (b : List Nat) : Nat :=
  b.getD 0 0 * 2 ^ 24 + b.getD 1 0 * 2 ^ 16 + b.getD 2 0 * 2 ^ 8 + b.getD 3 0

/-- The outcome of one turn of the post-handshake read loop. -/
inductive FrameStep where
  | keepAlive
  | fatalClose
  | deliver (id : Nat) (payload : List Nat)
  deriving Repr, DecidableEq

/-- `PeerConnection::handleReadHeader` (peerConnection.cpp lines 430-452)
composed with `handleReadBody` (lines 462-478): a zero length prefix is a
keep-alive (loop continues with no id or payload); a length above
`BLOCK_SIZE + 13` closes the connection; otherwise the first of the
`length` body bytes becomes the message id and the rest the payload. -/
def handleFrame (header : List Nat) (body : List Nat) : FrameStep :=
  let msgLength := beUint32 header
  if msgLength = 0 then .keepAlive
  else if msgLength > BLOCK_SIZE + 13 then .fatalClose
  else .deliver (body.headD 0) (body.drop 1)

end Transport

namespace Tracker

/-- `std::isalnum` in the C locale: `[0-9A-Za-z]`. -/
def isalnum (c : Nat) : Bool :=
  (48 ≤ c && c ≤ 57) || (65 ≤ c && c ≤ 90) || (97 ≤ c && c ≤ 122)

/-- One hexadecimal digit as `std::hex` prints it: lowercase. -/
def hexDigitLower (n : Nat) : Char :=
  if n < 10 then Char.ofNat (48 + n) else Char.ofNat (97 + (n - 10))

/-- One uppercase hexadecimal digit (what the claim's `%HH` asks for). -/
def hexDigitUpper (n : Nat) : Char :=
  if n < 10 then Char.ofNat (48 + n) else Char.ofNat (65 + (n - 10))

/-- `urlEncode` (tracker.cpp lines 7-24): bytes that satisfy
`std::isalnum` or are `- _ . ~` pass through; every other byte becomes
`%` followed by its two hex digits — `std::hex` with `setfill('0')` and
`setw(2)`, which prints lowercase. -/
def urlEncode (data : List Nat) : String :=
  data.foldl
    (fun s c =>
      if isalnum c || c == 45 || c == 95 || c == 46 || c == 126 then
        s.push (Char.ofNat c)
      else
        (((s.push '%').push (hexDigitLower (c / 16))).push
          (hexDigitLower (c % 16))))
    ""

/-- `buildTrackerUrl` (tracker.cpp lines 111-149): extend the announce URL
with the query string; the first separator is `&` exactly when the URL
already contains `?`, else `?`. -/
def buildTrackerUrl (announceUrl : String) (infoHash : List Nat)
    (peerId : List Nat) (port uploaded downloaded left compact : Nat) :
    String :=
  announceUrl ++
    (if announceUrl.data.contains '?' then "&" else "?") ++
    "info_hash=" ++ urlEncode infoHash ++
    "&peer_id=" ++ urlEncode peerId ++
    "&port=" ++ toString port ++
    "&uploaded=" ++ toString uploaded ++
    "&downloaded=" ++ toString downloaded ++
    "&left=" ++ toString left ++
    "&compact=" ++ toString compact ++
    "&event=started"

/-- The claim's unreserved set, written from its words:
`[A-Za-z0-9] ∪ {- _ . ~}`. -/
def isUnreservedSpec (c : Nat) : Bool :=
  (65 ≤ c && c ≤ 90) || (97 ≤ c && c ≤ 122) || (48 ≤ c && c ≤ 57) ||
    c == 45 || c == 95 || c == 46 || c == 126

/-- The percent-encoding exactly as the claim words it: every byte outside
the unreserved set becomes `%HH` with UPPERCASE hex digits. -/
def urlEncodeSpecUpper (data : List Nat) : String :=
  data.foldl
    (fun s c =>
      if isUnreservedSpec c then s.push (Char.ofNat c)
      else
        (((s.push '%').push (hexDigitUpper (c / 16))).push
          (hexDigitUpper (c % 16))))
    ""

/-- The claim's URL builder, with its uppercase percent-encoding. -/
def buildTrackerUrlSpecUpper (announceUrl : String) (infoHash : List Nat)
    (peerId : List Nat) (port uploaded downloaded left compact : Nat) :
    String :=
  announceUrl ++
    (if announceUrl.data.contains '?' then "&" else "?") ++
    "info_hash=" ++ urlEncodeSpecUpper infoHash ++
    "&peer_id=" ++ urlEncodeSpecUpper peerId ++
    "&port=" ++ toString port ++
    "&uploaded=" ++ toString uploaded ++
    "&downloaded=" ++ toString downloaded ++
    "&left=" ++ toString left ++
    "&compact=" ++ toString compact ++
    "&event=started"

/-- The amended percent-encoding: the claim's wording with lowercase hex
digits, which is what the code produces. -/
def urlEncodeSpecLower (data : List Nat) : String :=
  data.foldl
    (fun s c =>
      if isUnreservedSpec c then s.push (Char.ofNat c)
      else
        (((s.push '%').push (hexDigitLower (c / 16))).push
          (hexDigitLower (c % 16))))
    ""

/-- The amended URL builder: the claim's construction with lowercase
percent-encoding. -/
def buildTrackerUrlSpecLower (announceUrl : String) (infoHash : List Nat)
    (peerId : List Nat) (port uploaded downloaded left compact : Nat) :
    String :=
  announceUrl ++
    (if announceUrl.data.contains '?' then "&" else "?") ++
    "info_hash=" ++ urlEncodeSpecLower infoHash ++
    "&peer_id=" ++ urlEncodeSpecLower peerId ++
    "&port=" ++ toString port ++
    "&uploaded=" ++ toString uploaded ++
    "&downloaded=" ++ toString downloaded ++
    "&left=" ++ toString left ++
    "&compact=" ++ toString compact ++
    "&event=started"

end Tracker

namespace Choking

/-- Modelled from the spec: the `Peer` logic class is not under `src/`
(only forward declarations and callers are), so its members used by
`TitForTatChoking::rechoke` are modelled here.  Per the specification's
§4.5 the Peer "exposes upload/download rate accessors and am_choking …
mutators"; the rates are the PeerConnection's per-second counters
(peerConnection.h lines 122-123): `uploadRate` is the rate at which WE
upload to the remote peer (bytes we wrote), `downloadRate` the rate at
which the remote uploads to us.  `ident` stands for the peer's
identity (the shared_ptr in the source). -/
structure RPeer where
  ident : Nat
  uploadRate : Nat
  downloadRate : Nat
  amChoking : Bool
  deriving Repr, DecidableEq

/-- Descending insertion of a peer into a list sorted by `key`, stable on
ties (the peer is placed after entries with an equal key).  `std::sort`
leaves the order of ties unspecified; this is one faithful refinement. -/
def insertDesc (key : RPeer → Nat) (p : RPeer) : List RPeer → List RPeer
  | [] => [p]
  | q :: rest =>
      if key q < key p then p :: q :: rest else q :: insertDesc key p rest

/-- Sort peers by `key`, descending (the `std::sort` with comparator
`a->getUploadRate() > b->getUploadRate()` of titForTatChoking.h line 26,
abstracted over the key). -/
def sortDesc (key : RPeer → Nat) (l : List RPeer) : List RPeer :=
  l.foldl (fun acc p => insertDesc key p acc) []

/-- The body of `TitForTatChoking::rechoke` (titForTatChoking.h lines
20-64), abstracted over the sort key: sort descending, unchoke the first
four, and among the remainder unchoke the peer at the uniformly drawn
index (`r % size` models `uniform_int_distribution(0, size-1)` applied to
the generator) and choke the others.  A peer whose flag already equals the
target is left untouched (the source guards every mutation with
`isAmChoking`), so the returned flags are the final flags. -/
def rechokePass (key : RPeer → Nat) (r : Nat) (peers : List RPeer) :
    List RPeer :=
  if peers.isEmpty then peers
  else
    let sorted := sortDesc key peers
    let top := (sorted.take 4).map (fun p => { p with amChoking := false })
    let chokedPeers := sorted.drop 4
    if chokedPeers.isEmpty then top
    else
      let lucky := r % chokedPeers.length
      top ++ chokedPeers.enum.map (fun jp =>
        if jp.1 = lucky then { jp.2 with amChoking := false }
        else { jp.2 with amChoking := true })

/-- `TitForTatChoking::rechoke` as the source has it: the sort key is
`getUploadRate()` — the rate at which we upload to the peer. -/
def rechoke (r : Nat) (peers : List RPeer) : List RPeer :=
  rechokePass (·.uploadRate) r peers

/-- The rechoke pass as the claim (and the comment above the sort in the
source) words it: sorted by the peer's upload-to-us rate, i.e. our
download rate from them. -/
def rechokeSpecDownload (r : Nat) (peers : List RPeer) : List RPeer :=
  rechokePass (·.downloadRate) r peers

/-- The failing input for C6: six peers, all choked; peers 0-4 receive
data from us fast but upload nothing to us; peer 5 uploads to us fastest
but receives nothing. -/
def c6Peers : List RPeer :=
  [⟨0, 100, 0, true⟩, ⟨1, 99, 0, true⟩, ⟨2, 98, 0, true⟩,
   ⟨3, 97, 0, true⟩, ⟨4, 96, 0, true⟩, ⟨5, 0, 50, true⟩]

end Choking

end GoTorrent

namespace GoTorrent

namespace PiecePicker

lemma isCandidate_true_iff (st : State) (pbf mbf : List Nat) (i : Nat) :
    isCandidate st pbf mbf i = true ↔
      i < st.numPiecesInTorrent ∧ hasPiece mbf i = false ∧
        st.inFlightPieces.contains i = false ∧ hasPiece pbf i = true := by
  simp [isCandidate, and_assoc]

lemma pickStep_of_not_cand (st : State) (pbf mbf : List Nat)
    (acc : List Nat × Nat) (i : Nat)
    (hi : i < st.numPiecesInTorrent)
    (hc : isCandidate st pbf mbf i = false) :
    pickStep st pbf mbf acc i = acc := by
  by_cases hmy : hasPiece mbf i
  · simp [pickStep, hmy]
  · by_cases hinf : st.inFlightPieces.contains i
    · have hinf' : i ∈ st.inFlightPieces := by simpa using hinf
      simp [pickStep, hmy, hinf']
    · by_cases hpeer : hasPiece pbf i
      · exact absurd ((isCandidate_true_iff st pbf mbf i).mpr
          ⟨hi, by simpa using hmy, by simpa using hinf, hpeer⟩) (by simp [hc])
      · simp [pickStep, hmy, hinf, hpeer]

lemma pickStep_of_cand (st : State) (pbf mbf : List Nat)
    (acc : List Nat × Nat) (i : Nat)
    (hc : isCandidate st pbf mbf i = true) :
    pickStep st pbf mbf acc i =
      (if st.pieceAvailability.getD i 0 < acc.2 then
        ([i], st.pieceAvailability.getD i 0)
      else if st.pieceAvailability.getD i 0 = acc.2 then (acc.1 ++ [i], acc.2)
      else acc) := by
  rcases (isCandidate_true_iff st pbf mbf i).mp hc with ⟨_, hmy, hinf, hpeer⟩
  have hinf' : i ∉ st.inFlightPieces := by simpa using hinf
  simp [pickStep, hmy, hinf', hpeer]

lemma pickFold_inv (st : State) (pbf mbf : List Nat)
    (hval : ∀ i, st.pieceAvailability.getD i 0 ≤ SIZE_MAX) :
    ∀ n, n ≤ st.numPiecesInTorrent →
      pickInv st pbf mbf n
        ((List.range n).foldl (pickStep st pbf mbf) ([], SIZE_MAX)) := by
  intro n
  induction n with
  | zero =>
      intro _
      exact ⟨rfl, fun i hi => absurd hi (Nat.not_lt_zero i)⟩
  | succ n ih =>
      intro hn
      have hfold : (List.range (n + 1)).foldl (pickStep st pbf mbf) ([], SIZE_MAX)
          = pickStep st pbf mbf
              ((List.range n).foldl (pickStep st pbf mbf) ([], SIZE_MAX)) n := by
        rw [List.range_succ, List.foldl_append]
        rfl
      rw [hfold]
      have hinv := ih (Nat.le_of_succ_le hn)
      set acc := (List.range n).foldl (pickStep st pbf mbf) ([], SIZE_MAX) with hacc
      by_cases hc : isCandidate st pbf mbf n = true
      · rw [pickStep_of_cand st pbf mbf acc n hc]
        rcases hacc2 : acc with ⟨cs, m⟩
        rcases cs with _ | ⟨k, t⟩
        · -- no candidate yet: the minimum is still SIZE_MAX
          rcases (by rw [hacc2] at hinv; exact hinv :
            pickInv st pbf mbf n ([], m)) with ⟨hm, hnone⟩
          have hle : st.pieceAvailability.getD n 0 ≤ m := hm ▸ hval n
          rcases Nat.lt_or_ge (st.pieceAvailability.getD n 0) m with hlt | hge
          · simp only [hlt, if_pos]
            refine ⟨Nat.lt_succ_self n, hc, rfl, ?_, ?_⟩
            · intro j hj hcj
              rcases Nat.lt_succ_iff_lt_or_eq.mp hj with hj' | hj'
              · exact absurd hcj (by simp [hnone j hj'])
              · subst hj'; exact Nat.le_refl _
            · intro j hj hcj _
              rcases Nat.lt_succ_iff_lt_or_eq.mp hj with hj' | hj'
              · exact absurd hcj (by simp [hnone j hj'])
              · omega
          · have heq : st.pieceAvailability.getD n 0 = m := Nat.le_antisymm hle hge
            simp only [heq, if_neg (lt_irrefl m), if_pos rfl, List.nil_append]
            refine ⟨Nat.lt_succ_self n, hc, heq, ?_, ?_⟩
            · intro j hj hcj
              rcases Nat.lt_succ_iff_lt_or_eq.mp hj with hj' | hj'
              · exact absurd hcj (by simp [hnone j hj'])
              · subst hj'; exact Nat.le_of_eq heq.symm
            · intro j hj hcj _
              rcases Nat.lt_succ_iff_lt_or_eq.mp hj with hj' | hj'
              · exact absurd hcj (by simp [hnone j hj'])
              · omega
        · -- a candidate k with minimum m is already in hand
          rcases (by rw [hacc2] at hinv; exact hinv :
            pickInv st pbf mbf n (k :: t, m)) with ⟨hk, hck, hkm, hmin, hleast⟩
          rcases Nat.lt_or_ge (st.pieceAvailability.getD n 0) m with hlt | hge
          · simp only [hlt, if_pos]
            refine ⟨Nat.lt_succ_self n, hc, rfl, ?_, ?_⟩
            · intro j hj hcj
              rcases Nat.lt_succ_iff_lt_or_eq.mp hj with hj' | hj'
              · exact Nat.le_trans (Nat.le_of_lt hlt) (hmin j hj' hcj)
              · subst hj'; exact Nat.le_refl _
            · intro j hj hcj hjm
              rcases Nat.lt_succ_iff_lt_or_eq.mp hj with hj' | hj'
              · have := hmin j hj' hcj; omega
              · omega
          · rcases Nat.lt_or_ge m (st.pieceAvailability.getD n 0) with hgt | hge'
            · have hne : ¬ st.pieceAvailability.getD n 0 < m := by omega
              have hne' : ¬ st.pieceAvailability.getD n 0 = m := by omega
              simp only [hne, if_neg, hne', if_neg, if_false]
              refine ⟨Nat.lt_succ_of_lt hk, hck, hkm, ?_, ?_⟩
              · intro j hj hcj
                rcases Nat.lt_succ_iff_lt_or_eq.mp hj with hj' | hj'
                · exact hmin j hj' hcj
                · subst hj'; omega
              · intro j hj hcj hjm
                rcases Nat.lt_succ_iff_lt_or_eq.mp hj with hj' | hj'
                · exact hleast j hj' hcj hjm
                · subst hj'; omega
            · have heq : st.pieceAvailability.getD n 0 = m := by omega
              simp only [heq, if_neg (lt_irrefl m), if_pos rfl]
              refine ⟨Nat.lt_succ_of_lt hk, hck, hkm, ?_, ?_⟩
              · intro j hj hcj
                rcases Nat.lt_succ_iff_lt_or_eq.mp hj with hj' | hj'
                · exact hmin j hj' hcj
                · subst hj'; omega
              · intro j hj hcj hjm
                rcases Nat.lt_succ_iff_lt_or_eq.mp hj with hj' | hj'
                · exact hleast j hj' hcj hjm
                · subst hj'; exact Nat.le_of_lt hk
      · have hc' : isCandidate st pbf mbf n = false := by
          simpa using hc
        rw [pickStep_of_not_cand st pbf mbf acc n (Nat.lt_of_lt_of_le
          (Nat.lt_succ_self n) hn) hc']
        rcases hacc2 : acc with ⟨cs, m⟩
        rcases cs with _ | ⟨k, t⟩
        · rcases (by rw [hacc2] at hinv; exact hinv :
            pickInv st pbf mbf n ([], m)) with ⟨hm, hnone⟩
          refine ⟨hm, fun i hi => ?_⟩
          rcases Nat.lt_succ_iff_lt_or_eq.mp hi with hi' | hi'
          · exact hnone i hi'
          · subst hi'; exact hc'
        · rcases (by rw [hacc2] at hinv; exact hinv :
            pickInv st pbf mbf n (k :: t, m)) with ⟨hk, hck, hkm, hmin, hleast⟩
          refine ⟨Nat.lt_succ_of_lt hk, hck, hkm, ?_, ?_⟩
          · intro j hj hcj
            rcases Nat.lt_succ_iff_lt_or_eq.mp hj with hj' | hj'
            · exact hmin j hj' hcj
            · subst hj'; exact absurd hcj (by simp [hc'])
          · intro j hj hcj hjm
            rcases Nat.lt_succ_iff_lt_or_eq.mp hj with hj' | hj'
            · exact hleast j hj' hcj hjm
            · subst hj'; exact absurd hcj (by simp [hc'])

lemma bumpAvail_length (bf : List Nat) (n : Nat) (av : List Nat) :
    (bumpAvail bf n av).length = av.length := by
  induction n with
  | zero => simp [bumpAvail]
  | succ n ih =>
      have hstep : bumpAvail bf (n + 1) av =
          (if hasPiece bf n then
            (bumpAvail bf n av).set n (((bumpAvail bf n av).getD n 0 + 1) % 2 ^ 64)
          else bumpAvail bf n av) := by
        simp only [bumpAvail, List.range_succ, List.foldl_append,
          List.foldl_cons, List.foldl_nil]
      rw [hstep]
      by_cases hb : hasPiece bf n <;> simp [hb, List.length_set, ih]

lemma bumpAvail_getElem? (bf : List Nat) (n : Nat) (av : List Nat) :
    ∀ j, (bumpAvail bf n av)[j]? =
      if j < n ∧ hasPiece bf j = true then av[j]?.map (fun x => (x + 1) % 2 ^ 64)
      else av[j]? := by
  induction n with
  | zero => intro j; simp [bumpAvail]
  | succ n ih =>
      intro j
      have hstep : bumpAvail bf (n + 1) av =
          (if hasPiece bf n then
            (bumpAvail bf n av).set n (((bumpAvail bf n av).getD n 0 + 1) % 2 ^ 64)
          else bumpAvail bf n av) := by
        simp only [bumpAvail, List.range_succ, List.foldl_append,
          List.foldl_cons, List.foldl_nil]
      rw [hstep]
      have hnn : (bumpAvail bf n av)[n]? = av[n]? := by
        rw [ih n]; simp
      by_cases hb : hasPiece bf n
      · rw [if_pos hb]
        by_cases hj : j = n
        · subst hj
          by_cases hlen : j < av.length
          · have hlen' : j < (bumpAvail bf j av).length := by
              rw [bumpAvail_length]; exact hlen
            rcases hx : av[j]? with _ | x
            · exact absurd hx (by simp [List.getElem?_eq_some_iff, hlen])
            · have hgd : (bumpAvail bf j av).getD j 0 = x := by
                rw [List.getD_eq_getElem?_getD, hnn, hx]; rfl
              have hval : (bumpAvail bf j av)[j] = x := by
                have h1 := List.getElem?_eq_getElem hlen'
                rw [hnn, hx] at h1
                exact Option.some_inj.mp h1.symm
              rw [List.getElem?_set_self']
              simp [hgd, hx, hb, hlen', hval]
          · have hlen' : (bumpAvail bf j av).length ≤ j := by
              rw [bumpAvail_length]; omega
            rw [List.set_eq_of_length_le hlen', hnn]
            have hnone : av[j]? = none := by
              rw [List.getElem?_eq_none]; omega
            simp [hnone]
        · rw [List.getElem?_set_ne (by omega), ih j]
          have hiff : (j < n + 1 ∧ hasPiece bf j = true) ↔
              (j < n ∧ hasPiece bf j = true) := by
            constructor
            · rintro ⟨h1, h2⟩
              rcases Nat.lt_succ_iff_lt_or_eq.mp h1 with h | h
              · exact ⟨h, h2⟩
              · exact absurd h hj
            · rintro ⟨h1, h2⟩; exact ⟨by omega, h2⟩
          rw [if_congr hiff rfl rfl]
      · rw [if_neg hb, ih j]
        by_cases hj : j = n
        · subst hj
          simp [Bool.eq_false_iff.mpr hb]
        · have hiff : (j < n + 1 ∧ hasPiece bf j = true) ↔
              (j < n ∧ hasPiece bf j = true) := by
            constructor
            · rintro ⟨h1, h2⟩
              rcases Nat.lt_succ_iff_lt_or_eq.mp h1 with h | h
              · exact ⟨h, h2⟩
              · exact absurd h hj
            · rintro ⟨h1, h2⟩; exact ⟨by omega, h2⟩
          rw [if_congr hiff rfl rfl]

lemma decAvail_length (bf : List Nat) (n : Nat) (av : List Nat) :
    (decAvail bf n av).length = av.length := by
  induction n with
  | zero => simp [decAvail]
  | succ n ih =>
      have hstep : decAvail bf (n + 1) av =
          (if hasPiece bf n ∧ (decAvail bf n av).getD n 0 > 0 then
            (decAvail bf n av).set n ((decAvail bf n av).getD n 0 - 1)
          else decAvail bf n av) := by
        simp only [decAvail, List.range_succ, List.foldl_append,
          List.foldl_cons, List.foldl_nil]
      rw [hstep]
      by_cases hb : hasPiece bf n ∧ (decAvail bf n av).getD n 0 > 0
      · rw [if_pos hb, List.length_set]; exact ih
      · rw [if_neg hb]; exact ih

lemma decAvail_getElem? (bf : List Nat) (n : Nat) (av : List Nat) :
    ∀ j, (decAvail bf n av)[j]? =
      if j < n ∧ hasPiece bf j = true ∧ 0 < av[j]?.getD 0 then
        av[j]?.map (· - 1)
      else av[j]? := by
  induction n with
  | zero => intro j; simp [decAvail]
  | succ n ih =>
      intro j
      have hstep : decAvail bf (n + 1) av =
          (if hasPiece bf n ∧ (decAvail bf n av).getD n 0 > 0 then
            (decAvail bf n av).set n ((decAvail bf n av).getD n 0 - 1)
          else decAvail bf n av) := by
        simp only [decAvail, List.range_succ, List.foldl_append,
          List.foldl_cons, List.foldl_nil]
      rw [hstep]
      have hnn : (decAvail bf n av)[n]? = av[n]? := by
        rw [ih n]; simp
      have hgd : (decAvail bf n av).getD n 0 = av[n]?.getD 0 := by
        rw [List.getD_eq_getElem?_getD, hnn]
      by_cases hb : hasPiece bf n ∧ (decAvail bf n av).getD n 0 > 0
      · rw [if_pos hb]
        rcases hb with ⟨hb1, hb2⟩
        rw [hgd] at hb2
        by_cases hj : j = n
        · subst hj
          have hlen : j < av.length := by
            by_contra hcon
            have hno : av[j]? = none := by rw [List.getElem?_eq_none]; omega
            rw [hno] at hb2
            simp at hb2
          have hlen' : j < (decAvail bf j av).length := by
            rw [decAvail_length]; exact hlen
          rcases hx : av[j]? with _ | x
          · exact absurd hx (by simp [List.getElem?_eq_some_iff, hlen])
          · have hgd' : (decAvail bf j av).getD j 0 = x := by
              rw [hgd, hx]; rfl
            have hval : (decAvail bf j av)[j] = x := by
              have h1 := List.getElem?_eq_getElem hlen'
              rw [hnn, hx] at h1
              exact Option.some_inj.mp h1.symm
            rw [hx] at hb2
            simp only [Option.getD_some] at hb2
            rw [List.getElem?_set_self']
            simp [hgd', hx, hb1, hb2, hlen', hval]
        · rw [List.getElem?_set_ne (by omega), ih j]
          have hiff : (j < n + 1 ∧ hasPiece bf j = true ∧ 0 < av[j]?.getD 0) ↔
              (j < n ∧ hasPiece bf j = true ∧ 0 < av[j]?.getD 0) := by
            constructor
            · rintro ⟨h1, h2⟩
              rcases Nat.lt_succ_iff_lt_or_eq.mp h1 with h | h
              · exact ⟨h, h2⟩
              · exact absurd h hj
            · rintro ⟨h1, h2⟩; exact ⟨by omega, h2⟩
          rw [if_congr hiff rfl rfl]
      · rw [if_neg hb, ih j]
        by_cases hj : j = n
        · subst hj
          have hcond : ¬ (j < j + 1 ∧ hasPiece bf j = true ∧ 0 < av[j]?.getD 0) := by
            rintro ⟨_, h2, h3⟩
            rw [hgd] at hb
            exact hb ⟨h2, h3⟩
          rw [if_neg hcond]
          have hcond' : ¬ (j < j ∧ hasPiece bf j = true ∧ 0 < av[j]?.getD 0) := by
            rintro ⟨h1, _⟩; omega
          rw [if_neg hcond']
        · have hiff : (j < n + 1 ∧ hasPiece bf j = true ∧ 0 < av[j]?.getD 0) ↔
              (j < n ∧ hasPiece bf j = true ∧ 0 < av[j]?.getD 0) := by
            constructor
            · rintro ⟨h1, h2⟩
              rcases Nat.lt_succ_iff_lt_or_eq.mp h1 with h | h
              · exact ⟨h, h2⟩
              · exact absurd h hj
            · rintro ⟨h1, h2⟩; exact ⟨by omega, h2⟩
          rw [if_congr hiff rfl rfl]

end PiecePicker

namespace DiskTorrentStorage

lemma readWalk_zero (files : List FileEntry) (g : Nat) :
    readWalk files g 0 = ([], 0) := by
  cases files <;> simp [readWalk]

lemma flattenData_cons (f : FileEntry) (rest : List FileEntry) :
    flattenData (f :: rest) = f.data ++ flattenData rest := by
  simp [flattenData]

lemma totalLen_cons (f : FileEntry) (rest : List FileEntry) :
    totalLen (f :: rest) = f.length + totalLen rest := by
  simp [totalLen]

lemma readWalk_eq (files : List FileEntry) :
    ∀ off g L, contiguousFrom off files → off ≤ g →
      readWalk files g L =
        (((flattenData files).drop (g - off)).take L,
          L - (off + totalLen files - g)) := by
  induction files with
  | nil =>
      intro off g L _ hle
      have h2 : L - (off + totalLen ([] : List FileEntry) - g) = L := by
        simp [totalLen]; omega
      rw [h2]
      simp [readWalk, flattenData]
  | cons f rest ih =>
      intro off g L hcont hle
      rcases hcont with ⟨hoff, hdlen, hrest⟩
      subst hoff
      rw [flattenData_cons, totalLen_cons]
      by_cases hL : L = 0
      · subst hL
        simp [readWalk]
      · simp only [readWalk, if_neg hL]
        by_cases hg : g < f.globalOffset + f.length
        · rw [if_pos ⟨hle, hg⟩]
          by_cases hchunk : L ≤ f.length - (g - f.globalOffset)
          · rw [Nat.min_eq_left hchunk, Nat.sub_self, readWalk_zero]
            simp only [Prod.mk.injEq]
            constructor
            · rw [List.drop_append_eq_append_drop,
                List.take_append_eq_append_take]
              have hd1 : g - f.globalOffset - f.data.length = 0 := by
                rw [hdlen]; omega
              have hd2 : L - (f.data.drop (g - f.globalOffset)).length = 0 := by
                rw [List.length_drop, hdlen]; omega
              rw [hd1, hd2]
              simp
            · omega
          · have hchunk' : f.length - (g - f.globalOffset) ≤ L := by omega
            rw [Nat.min_eq_right hchunk']
            have hrec := ih (f.globalOffset + f.length)
              (g + (f.length - (g - f.globalOffset)))
              (L - (f.length - (g - f.globalOffset))) hrest (by omega)
            have hgc : g + (f.length - (g - f.globalOffset)) -
                (f.globalOffset + f.length) = 0 := by omega
            rw [hgc] at hrec
            rw [hrec]
            simp only [Prod.mk.injEq, List.drop_zero]
            constructor
            · rw [List.drop_append_eq_append_drop,
                List.take_append_eq_append_take]
              have hd1 : g - f.globalOffset - f.data.length = 0 := by
                rw [hdlen]; omega
              have hlendrop : (f.data.drop (g - f.globalOffset)).length =
                  f.length - (g - f.globalOffset) := by
                rw [List.length_drop, hdlen]
              have ha : List.take L (f.data.drop (g - f.globalOffset)) =
                  f.data.drop (g - f.globalOffset) :=
                List.take_of_length_le (by rw [hlendrop]; omega)
              have hb : List.take (f.length - (g - f.globalOffset))
                  (f.data.drop (g - f.globalOffset)) =
                  f.data.drop (g - f.globalOffset) :=
                List.take_of_length_le (by rw [hlendrop])
              rw [hd1, List.drop_zero, hlendrop, ha, hb]
            · omega
        · rw [if_neg (by rintro ⟨_, h⟩; exact hg h)]
          have hrec := ih (f.globalOffset + f.length) g L hrest (by omega)
          rw [hrec]
          simp only [Prod.mk.injEq]
          constructor
          · rw [List.drop_append_eq_append_drop]
            have hd1 : f.data.drop (g - f.globalOffset) = [] := by
              apply List.drop_of_length_le
              rw [hdlen]; omega
            rw [hd1, List.nil_append]
            have hidx : g - f.globalOffset - f.data.length =
                g - (f.globalOffset + f.length) := by
              rw [hdlen]; omega
            rw [hidx]
          · omega

lemma writeWalk_nil_pending (files : List FileEntry) (g : Nat) :
    writeWalk files g [] = (files, 0) := by
  cases files <;> simp [writeWalk]

lemma writeWalk_eq (files : List FileEntry) :
    ∀ off g pending, contiguousFrom off files → off ≤ g →
      (writeWalk files g pending).2 =
          pending.length - (off + totalLen files - g) ∧
      flattenData (writeWalk files g pending).1 =
          (flattenData files).take (g - off) ++
            pending.take (off + totalLen files - g) ++
            (flattenData files).drop ((g - off) + pending.length) ∧
      contiguousFrom off (writeWalk files g pending).1 := by
  induction files with
  | nil =>
      intro off g pending _ hle
      have h0 : off + totalLen ([] : List FileEntry) - g = 0 := by
        simp [totalLen]; omega
      rw [h0]
      simp [writeWalk, flattenData, contiguousFrom]
  | cons f rest ih =>
      intro off g pending hcont hle
      rcases hcont with ⟨hoff, hdlen, hrest⟩
      subst hoff
      rw [totalLen_cons, flattenData_cons]
      by_cases hp : pending.length = 0
      · have hpnil : pending = [] := List.eq_nil_of_length_eq_zero hp
        subst hpnil
        rw [writeWalk_nil_pending]
        refine ⟨by simp, ?_, ⟨rfl, hdlen, hrest⟩⟩
        rw [flattenData_cons]
        simp [List.take_append_drop]
      · have hw0 : writeWalk (f :: rest) g pending =
            (if f.globalOffset ≤ g ∧ g < f.globalOffset + f.length then
              ({ f with data := f.data.take (g - f.globalOffset) ++
                  pending.take (min pending.length
                    (f.length - (g - f.globalOffset))) ++
                  f.data.drop ((g - f.globalOffset) +
                    min pending.length (f.length - (g - f.globalOffset))) } ::
                (writeWalk rest
                  (g + min pending.length (f.length - (g - f.globalOffset)))
                  (pending.drop (min pending.length
                    (f.length - (g - f.globalOffset))))).1,
                (writeWalk rest
                  (g + min pending.length (f.length - (g - f.globalOffset)))
                  (pending.drop (min pending.length
                    (f.length - (g - f.globalOffset))))).2)
            else ((f :: (writeWalk rest g pending).1),
              (writeWalk rest g pending).2)) := by
          simp only [writeWalk, if_neg hp]
        by_cases hg : g < f.globalOffset + f.length
        · by_cases hsmall : pending.length ≤ f.length - (g - f.globalOffset)
          · rw [hw0, if_pos ⟨hle, hg⟩]
            dsimp only
            rw [Nat.min_eq_left hsmall,
              List.drop_of_length_le (Nat.le_refl _), writeWalk_nil_pending]
            dsimp only
            have htk : pending.take pending.length = pending :=
              List.take_of_length_le (Nat.le_refl _)
            refine ⟨by omega, ?_, ?_⟩
            · rw [flattenData_cons]
              have hrhs1 : (f.data ++ flattenData rest).take (g - f.globalOffset)
                  = f.data.take (g - f.globalOffset) := by
                rw [List.take_append_eq_append_take]
                have hz : g - f.globalOffset - f.data.length = 0 := by
                  rw [hdlen]; omega
                rw [hz]
                simp
              have hrhs2 : pending.take
                  (f.globalOffset + (f.length + totalLen rest) - g) = pending :=
                List.take_of_length_le (by omega)
              have hrhs3 : (f.data ++ flattenData rest).drop
                  ((g - f.globalOffset) + pending.length) =
                  f.data.drop ((g - f.globalOffset) + pending.length) ++
                    flattenData rest := by
                rw [List.drop_append_eq_append_drop]
                have hz : (g - f.globalOffset) + pending.length -
                    f.data.length = 0 := by
                  rw [hdlen]; omega
                rw [hz]
                simp
              rw [hrhs1, hrhs2, hrhs3, htk]
              simp [List.append_assoc]
            · refine ⟨rfl, ?_, hrest⟩
              rw [htk]
              simp only [List.length_append, List.length_take,
                List.length_drop, hdlen]
              omega
          · have hbig : f.length - (g - f.globalOffset) ≤ pending.length := by
              omega
            have hgc : g + (f.length - (g - f.globalOffset)) =
                f.globalOffset + f.length := by omega
            rw [hw0, if_pos ⟨hle, hg⟩]
            dsimp only
            rw [Nat.min_eq_right hbig, hgc]
            obtain ⟨ih1, ih2, ih3⟩ := ih (f.globalOffset + f.length)
              (f.globalOffset + f.length)
              (pending.drop (f.length - (g - f.globalOffset))) hrest
              (Nat.le_refl _)
            have hidx : f.globalOffset + f.length + totalLen rest -
                (f.globalOffset + f.length) = totalLen rest := by omega
            simp only [Nat.sub_self, Nat.zero_add, List.take_zero,
              List.nil_append, List.length_drop, hidx] at ih1 ih2
            refine ⟨?_, ?_, ?_⟩
            · rw [ih1]
              omega
            · rw [flattenData_cons, ih2]
              have hdropf : f.data.drop ((g - f.globalOffset) +
                  (f.length - (g - f.globalOffset))) = [] := by
                apply List.drop_of_length_le
                rw [hdlen]; omega
              have hrhs1 : (f.data ++ flattenData rest).take (g - f.globalOffset)
                  = f.data.take (g - f.globalOffset) := by
                rw [List.take_append_eq_append_take]
                have hz : g - f.globalOffset - f.data.length = 0 := by
                  rw [hdlen]; omega
                rw [hz]
                simp
              have hsplit : pending.take
                  (f.globalOffset + (f.length + totalLen rest) - g) =
                  pending.take (f.length - (g - f.globalOffset)) ++
                    (pending.drop (f.length - (g - f.globalOffset))).take
                      (totalLen rest) := by
                rw [← List.take_add]
                have hidx2 : f.globalOffset + (f.length + totalLen rest) - g =
                    f.length - (g - f.globalOffset) + totalLen rest := by omega
                rw [hidx2]
              have hrhs3 : (f.data ++ flattenData rest).drop
                  ((g - f.globalOffset) + pending.length) =
                  (flattenData rest).drop
                    (pending.length - (f.length - (g - f.globalOffset))) := by
                rw [List.drop_append_eq_append_drop]
                have hnil : f.data.drop ((g - f.globalOffset) + pending.length)
                    = [] := by
                  apply List.drop_of_length_le
                  rw [hdlen]; omega
                have hidx3 : (g - f.globalOffset) + pending.length -
                    f.data.length =
                    pending.length - (f.length - (g - f.globalOffset)) := by
                  rw [hdlen]; omega
                rw [hnil, List.nil_append, hidx3]
              rw [hrhs1, hsplit, hrhs3, hdropf]
              simp [List.append_assoc]
            · refine ⟨rfl, ?_, ih3⟩
              simp only [List.length_append, List.length_take,
                List.length_drop, hdlen]
              omega
        · rw [hw0, if_neg (by rintro ⟨_, h⟩; exact hg h)]
          dsimp only
          obtain ⟨ih1, ih2, ih3⟩ := ih (f.globalOffset + f.length) g pending
            hrest (by omega)
          refine ⟨?_, ?_, ⟨rfl, hdlen, ih3⟩⟩
          · rw [ih1]
            omega
          · rw [flattenData_cons, ih2]
            have hrhs1 : (f.data ++ flattenData rest).take (g - f.globalOffset)
                = f.data ++ (flattenData rest).take
                  (g - (f.globalOffset + f.length)) := by
              rw [List.take_append_eq_append_take]
              have hall : f.data.take (g - f.globalOffset) = f.data :=
                List.take_of_length_le (by rw [hdlen]; omega)
              have hidx4 : g - f.globalOffset - f.data.length =
                  g - (f.globalOffset + f.length) := by
                rw [hdlen]; omega
              rw [hall, hidx4]
            have hrhs3 : (f.data ++ flattenData rest).drop
                ((g - f.globalOffset) + pending.length) =
                (flattenData rest).drop
                  ((g - (f.globalOffset + f.length)) + pending.length) := by
              rw [List.drop_append_eq_append_drop]
              have hnil : f.data.drop ((g - f.globalOffset) + pending.length)
                  = [] := by
                apply List.drop_of_length_le
                rw [hdlen]; omega
              have hidx5 : (g - f.globalOffset) + pending.length -
                  f.data.length =
                  (g - (f.globalOffset + f.length)) + pending.length := by
                rw [hdlen]; omega
              rw [hnil, List.nil_append, hidx5]
            have hmid : pending.take
                (f.globalOffset + (f.length + totalLen rest) - g) =
                pending.take (f.globalOffset + f.length + totalLen rest - g) := by
              have hidx6 : f.globalOffset + (f.length + totalLen rest) - g =
                  f.globalOffset + f.length + totalLen rest - g := by omega
              rw [hidx6]
            rw [hrhs1, hrhs3, hmid]
            simp [List.append_assoc]
end DiskTorrentStorage

namespace PieceRepository

lemma land_two_pow_bool (x b : Nat) :
    (Nat.land x (1 <<< b) != 0) = x.testBit b := by
  have h : Nat.land x (1 <<< b) = x &&& 2 ^ b := by
    rw [Nat.one_shiftLeft]; rfl
  rw [h, Nat.and_two_pow]
  cases hx : x.testBit b
  · simp
  · simp

end PieceRepository

/-- C9: `savePiece(i, data)` modifies only bit `i` of the local bitfield —
after an in-range update `havePiece(i)` reports `true` and every other bit
keeps its value; an update whose byte position `i/8` lies at or past the
end of the bitfield leaves the bitfield entirely unchanged instead of
failing; and the bitfield produced by a successful `savePiece` is exactly
`updateBitfield` of the prior one. -/
theorem c9_savePiece_frame (bf : List Nat) (i : Nat) :
    (i / 8 < bf.length →
      PieceRepository.havePiece (PieceRepository.updateBitfield bf i) i = true ∧
      ∀ j, j ≠ i →
        PieceRepository.havePiece (PieceRepository.updateBitfield bf i) j =
          PieceRepository.havePiece bf j) ∧
    (bf.length ≤ i / 8 → PieceRepository.updateBitfield bf i = bf) ∧
    (∀ files pieceLength data out,
      PieceRepository.savePiece files pieceLength bf i data = .ok out →
        out.2 = PieceRepository.updateBitfield bf i) := by
  refine ⟨?_, ?_, ?_⟩
  · intro h
    have hlen : (PieceRepository.updateBitfield bf i).length = bf.length := by
      simp only [PieceRepository.updateBitfield, if_pos h]
      exact List.length_set bf _ _
    have hbyte : (PieceRepository.updateBitfield bf i).getD (i / 8) 0 =
        Nat.lor (bf.getD (i / 8) 0) (1 <<< (7 - i % 8)) := by
      simp only [PieceRepository.updateBitfield, if_pos h]
      rw [List.getD_eq_getElem?_getD, List.getElem?_set_self h]
      rfl
    constructor
    · have hcond : ¬ (i / 8 ≥ (PieceRepository.updateBitfield bf i).length) := by
        rw [hlen]; omega
      simp only [PieceRepository.havePiece, if_neg hcond]
      have hlor : ∀ a c : Nat, Nat.lor a c = a ||| c := fun _ _ => rfl
      rw [hbyte, PieceRepository.land_two_pow_bool, Nat.one_shiftLeft, hlor,
        Nat.testBit_lor, Nat.testBit_two_pow_self]
      simp
    · intro j hj
      by_cases hb : j / 8 = i / 8
      · have hm : j % 8 ≠ i % 8 := by
          intro he
          exact hj (by omega)
        have hbne : (7 - i % 8) ≠ (7 - j % 8) := by omega
        have hcondn : ¬ (j / 8 ≥ (PieceRepository.updateBitfield bf i).length) := by
          rw [hlen, hb]; omega
        have hcondo : ¬ (j / 8 ≥ bf.length) := by rw [hb]; omega
        simp only [PieceRepository.havePiece, if_neg hcondn, if_neg hcondo]
        have hlor : ∀ a c : Nat, Nat.lor a c = a ||| c := fun _ _ => rfl
        rw [hb, hbyte, PieceRepository.land_two_pow_bool,
          PieceRepository.land_two_pow_bool, Nat.one_shiftLeft, hlor,
          Nat.testBit_lor, Nat.testBit_two_pow_of_ne hbne]
        simp
      · have hset : (PieceRepository.updateBitfield bf i).getD (j / 8) 0 =
            bf.getD (j / 8) 0 := by
          simp only [PieceRepository.updateBitfield, if_pos h]
          rw [List.getD_eq_getElem?_getD,
            List.getElem?_set_ne (fun he => hb he.symm),
            ← List.getD_eq_getElem?_getD]
        by_cases hr : j / 8 ≥ bf.length
        · have hr2 : j / 8 ≥ (PieceRepository.updateBitfield bf i).length := by
            rw [hlen]; exact hr
          simp only [PieceRepository.havePiece, if_pos hr, if_pos hr2]
        · have hr2 : ¬ (j / 8 ≥ (PieceRepository.updateBitfield bf i).length) := by
            rw [hlen]; exact hr
          simp only [PieceRepository.havePiece, if_neg hr, if_neg hr2, hset]
  · intro h
    simp only [PieceRepository.updateBitfield]
    rw [if_neg (by omega)]
  · intro files pieceLength data out hok
    simp only [PieceRepository.savePiece] at hok
    rcases hw : DiskTorrentStorage.writePiece files pieceLength i data with e | fs
    · rw [hw] at hok
      exact absurd hok (by simp)
    · rw [hw] at hok
      simp only [Except.ok.injEq] at hok
      rw [← hok]

/-- Witness for C9: updating bit 0 of the one-byte bitfield `[0]` sets it
and leaves bit 1 alone; updating out-of-range bit 8 changes nothing; and a
successful `savePiece` on a one-byte file yields exactly the updated
bitfield. -/
theorem c9_savePiece_frame_witness :
    (PieceRepository.havePiece (PieceRepository.updateBitfield [0] 0) 0 = true ∧
      ∀ j, j ≠ 0 →
        PieceRepository.havePiece (PieceRepository.updateBitfield [0] 0) j =
          PieceRepository.havePiece [0] j) ∧
    PieceRepository.updateBitfield [0] 8 = [0] ∧
    ((⟨[⟨1, 0, [5]⟩], [128]⟩ :
        List DiskTorrentStorage.FileEntry × List Nat)).2 =
      PieceRepository.updateBitfield [0] 0 :=
  ⟨(c9_savePiece_frame [0] 0).1 (by decide),
   (c9_savePiece_frame [0] 8).2.1 (by decide),
   (c9_savePiece_frame [0] 0).2.2 [⟨1, 0, [9]⟩] 1 [5] ⟨[⟨1, 0, [5]⟩], [128]⟩
     (by rfl)⟩

/-- C10: every bitfield membership query is total on out-of-range indices —
for any bitfield byte vector and any index whose byte position `index / 8`
is at or past the end of the vector, both `PiecePicker::hasPiece` and
`PieceRepository::havePiece` return `false` (the access is guarded by the
bounds check, so no out-of-bounds read happens). -/
theorem c10_bitfield_query_total (bf : List Nat) (i : Nat)
    (h : bf.length ≤ i / 8) :
    PiecePicker.hasPiece bf i = false ∧
      PieceRepository.havePiece bf i = false := by
  constructor
  · simp only [PiecePicker.hasPiece]
    rw [if_pos h]
  · simp only [PieceRepository.havePiece]
    rw [if_pos h]

/-- Witness for C10: querying bit 3 of an empty bitfield. -/
theorem c10_bitfield_query_total_witness :
    PiecePicker.hasPiece [] 3 = false ∧
      PieceRepository.havePiece [] 3 = false :=
  c10_bitfield_query_total [] 3 (by decide)

namespace PeerConn

lemma pieceBufferSize_le (pieceLength totalLength i : Nat) :
    pieceBufferSize pieceLength totalLength i ≤ pieceLength := by
  unfold pieceBufferSize
  split
  · omega
  · exact Nat.le_refl _

lemma requestPieceLoop_blockLength (fuel : Nat) :
    ∀ (st : State) (sent : List PendingRequest),
      st.currentPieceBufferSize ≤ st.pieceLength →
      (∀ req ∈ sent, req.length = min BLOCK_SIZE (st.pieceLength - req.begin)) →
      ∀ req ∈ (requestPieceLoop fuel st sent).2,
        req.length = min BLOCK_SIZE (st.pieceLength - req.begin) := by
  induction fuel with
  | zero =>
      intro st sent _ hsent req hreq
      exact hsent req hreq
  | succ fuel ih =>
      intro st sent hbuf hsent req hreq
      by_cases hcond : st.inFlightRequests.length < MAX_PIPELINE_SIZE
      · rcases hassign : assignPieceIfNeeded st with _ | st1
        · have hstep : requestPieceLoop (fuel + 1) st sent =
              ({ st with bitfieldUpdated := false }, sent) := by
            simp only [requestPieceLoop]
            rw [if_pos hcond, hassign]
          rw [hstep] at hreq
          exact hsent req hreq
        · have hpl : st1.pieceLength = st.pieceLength := by
            simp only [assignPieceIfNeeded] at hassign
            by_cases hoff : st.nextBlockOffset = 0
            · rw [if_pos hoff] at hassign
              rcases hfind : findWantedPiece st with _ | i
              · rw [hfind] at hassign
                exact absurd hassign (by simp)
              · rw [hfind] at hassign
                simp only [Option.some.injEq] at hassign
                rw [← hassign]
            · rw [if_neg hoff] at hassign
              simp only [Option.some.injEq] at hassign
              rw [← hassign]
          have hbuf1 : st1.currentPieceBufferSize ≤ st.pieceLength := by
            simp only [assignPieceIfNeeded] at hassign
            by_cases hoff : st.nextBlockOffset = 0
            · rw [if_pos hoff] at hassign
              rcases hfind : findWantedPiece st with _ | i
              · rw [hfind] at hassign
                exact absurd hassign (by simp)
              · rw [hfind] at hassign
                simp only [Option.some.injEq] at hassign
                rw [← hassign]
                exact pieceBufferSize_le _ _ _
            · rw [if_neg hoff] at hassign
              simp only [Option.some.injEq] at hassign
              rw [← hassign]
              exact hbuf
          by_cases hdone : st1.nextBlockOffset ≥ st1.currentPieceBufferSize
          · have hstep : requestPieceLoop (fuel + 1) st sent =
                ({ st1 with bitfieldUpdated := false }, sent) := by
              simp only [requestPieceLoop]
              rw [if_pos hcond, hassign]
              dsimp only
              rw [if_pos hdone]
            rw [hstep] at hreq
            exact hsent req hreq
          · by_cases hzero : st1.currentPieceBufferSize = 0
            · have hstep : requestPieceLoop (fuel + 1) st sent =
                  ({ st1 with nextBlockOffset := 0 }, sent) := by
                simp only [requestPieceLoop]
                rw [if_pos hcond, hassign]
                dsimp only
                rw [if_neg hdone, if_pos hzero]
              rw [hstep] at hreq
              exact hsent req hreq
            · have hofflt : st1.nextBlockOffset < st1.currentPieceBufferSize := by
                omega
              have hoffpl : st1.nextBlockOffset ≤ st.pieceLength := by
                omega
              have hblock : (if st1.nextBlockOffset + BLOCK_SIZE > st1.pieceLength
                    then st1.pieceLength - st1.nextBlockOffset else BLOCK_SIZE) =
                  min BLOCK_SIZE (st.pieceLength - st1.nextBlockOffset) := by
                rw [hpl]
                by_cases hgt : st1.nextBlockOffset + BLOCK_SIZE > st.pieceLength
                · rw [if_pos hgt, Nat.min_eq_right (by omega)]
                · rw [if_neg hgt, Nat.min_eq_left (by omega)]
              have hstep : requestPieceLoop (fuel + 1) st sent =
                  requestPieceLoop fuel
                    { st1 with
                      inFlightRequests := st1.inFlightRequests ++
                        [⟨st1.nextPieceIndex, st1.nextBlockOffset,
                          if st1.nextBlockOffset + BLOCK_SIZE > st1.pieceLength
                          then st1.pieceLength - st1.nextBlockOffset
                          else BLOCK_SIZE⟩],
                      nextBlockOffset := st1.nextBlockOffset +
                        (if st1.nextBlockOffset + BLOCK_SIZE > st1.pieceLength
                          then st1.pieceLength - st1.nextBlockOffset
                          else BLOCK_SIZE) }
                    (sent ++ [⟨st1.nextPieceIndex, st1.nextBlockOffset,
                      if st1.nextBlockOffset + BLOCK_SIZE > st1.pieceLength
                      then st1.pieceLength - st1.nextBlockOffset
                      else BLOCK_SIZE⟩]) := by
                simp only [requestPieceLoop]
                rw [if_pos hcond, hassign]
                dsimp only
                rw [if_neg hdone, if_neg hzero]
              rw [hstep] at hreq
              have hres := ih _ _ (by dsimp only; omega)
                (by
                  intro r hr
                  dsimp only
                  rcases List.mem_append.mp hr with hr | hr
                  · rw [hpl]
                    exact hsent r hr
                  · have hrone : r = ⟨st1.nextPieceIndex, st1.nextBlockOffset,
                        if st1.nextBlockOffset + BLOCK_SIZE > st1.pieceLength
                        then st1.pieceLength - st1.nextBlockOffset
                        else BLOCK_SIZE⟩ := by simpa using hr
                    subst hrone
                    dsimp only
                    rw [hblock, hpl])
                req hreq
              dsimp only at hres
              rw [hpl] at hres
              exact hres
      · have hstep : requestPieceLoop (fuel + 1) st sent = (st, sent) := by
          simp only [requestPieceLoop]
          rw [if_neg hcond]
        rw [hstep] at hreq
        exact hsent req hreq

end PeerConn

/-- C6, evaluated at the failing input: `rechoke` sorts by
`getUploadRate()` — the rate at which we upload to the peer — although the
claim (and the comment right above the sort in the source) says the sort
key is the peer's upload-to-us rate, i.e. our download rate from them.
Peer 5 uploads to us fastest but, because we upload nothing to it, the
code leaves it choked while the claim's policy unchokes it into the top
four. -/
theorem c6_rechoke_sort_key_evaluation :
    (Choking.rechoke 0 Choking.c6Peers).find? (fun p => p.ident == 5) =
      some ⟨5, 0, 50, true⟩ ∧
    (Choking.rechokeSpecDownload 0 Choking.c6Peers).find?
      (fun p => p.ident == 5) = some ⟨5, 0, 50, false⟩ := by
  constructor
  · decide
  · decide

/-- Counterexample for C7: on the byte `0xAB` the code emits the lowercase
escape `%ab`, so the built URL differs from the claim's uppercase-`%HH`
construction. -/
theorem c7_urlEncode_case_counterexample :
    Tracker.buildTrackerUrl "http://t/a" [171] [] 1 2 3 4 1 ≠
      Tracker.buildTrackerUrlSpecUpper "http://t/a" [171] [] 1 2 3 4 1 := by
  decide

lemma urlEncode_eq_specLower (data : List Nat) :
    Tracker.urlEncode data = Tracker.urlEncodeSpecLower data := by
  unfold Tracker.urlEncode Tracker.urlEncodeSpecLower
  have hfun : (fun (s : String) (c : Nat) =>
      if Tracker.isalnum c || c == 45 || c == 95 || c == 46 || c == 126 then
        s.push (Char.ofNat c)
      else (((s.push '%').push (Tracker.hexDigitLower (c / 16))).push
        (Tracker.hexDigitLower (c % 16)))) =
      (fun (s : String) (c : Nat) =>
      if Tracker.isUnreservedSpec c then s.push (Char.ofNat c)
      else (((s.push '%').push (Tracker.hexDigitLower (c / 16))).push
        (Tracker.hexDigitLower (c % 16)))) := by
    funext s c
    have hcond : (Tracker.isalnum c || c == 45 || c == 95 ||
        c == 46 || c == 126) = Tracker.isUnreservedSpec c := by
      rw [Bool.eq_iff_iff]
      simp only [Tracker.isalnum, Tracker.isUnreservedSpec, Bool.or_eq_true,
        Bool.and_eq_true, decide_eq_true_eq, beq_iff_eq]
      omega
    rw [hcond]
  rw [hfun]

/-- C7 as amended: `buildTrackerUrl` extends the announce URL with
`info_hash`, `peer_id` (percent-encoded with every byte outside
`[A-Za-z0-9-_.~]` becoming `%hh` with LOWERCASE hex digits and unreserved
bytes passed through), `port`, `uploaded`, `downloaded`, `left`,
`compact` and `event=started`, using `&` as the first separator exactly
when the announce URL already contains `?`, otherwise `?`. -/
theorem c7_buildTrackerUrl_amended (announceUrl : String)
    (infoHash peerId : List Nat)
    (port uploaded downloaded left compact : Nat) :
    Tracker.buildTrackerUrl announceUrl infoHash peerId
        port uploaded downloaded left compact =
      Tracker.buildTrackerUrlSpecLower announceUrl infoHash peerId
        port uploaded downloaded left compact := by
  unfold Tracker.buildTrackerUrl Tracker.buildTrackerUrlSpecLower
  rw [urlEncode_eq_specLower, urlEncode_eq_specLower]

/-- C8: in the post-handshake read loop, a zero length prefix is a
keep-alive; a length prefix greater than `BLOCK_SIZE + 13 = 16397` closes
the connection; any other length delivers the first body byte as the
message id and the remaining `length - 1` bytes as the payload. -/
theorem c8_frame_classification (header body : List Nat)
    (hlen : body.length = Transport.beUint32 header) :
    (Transport.beUint32 header = 0 →
      Transport.handleFrame header body = .keepAlive) ∧
    (Transport.beUint32 header > BLOCK_SIZE + 13 →
      Transport.handleFrame header body = .fatalClose) ∧
    BLOCK_SIZE + 13 = 16397 ∧
    (0 < Transport.beUint32 header →
      Transport.beUint32 header ≤ BLOCK_SIZE + 13 →
      ∃ id payload, body = id :: payload ∧
        Transport.handleFrame header body = .deliver id payload ∧
        payload.length = Transport.beUint32 header - 1) := by
  refine ⟨?_, ?_, by decide, ?_⟩
  · intro h
    simp [Transport.handleFrame, h]
  · intro h
    simp only [Transport.handleFrame]
    rw [if_neg (by omega), if_pos h]
  · intro hpos hle
    rcases body with _ | ⟨a, t⟩
    · simp at hlen
      omega
    · refine ⟨a, t, rfl, ?_, ?_⟩
      · simp only [Transport.handleFrame]
        rw [if_neg (by omega), if_neg (by omega)]
        rfl
      · simp at hlen
        omega

/-- Witness for C8: an all-zero prefix is a keep-alive, and the prefix
16398 (one above the cap) is fatal. -/
theorem c8_frame_classification_witness :
    Transport.handleFrame [0, 0, 0, 0] [] = .keepAlive ∧
    Transport.handleFrame [0, 0, 64, 14] (List.replicate 16398 0) =
      .fatalClose :=
  ⟨(c8_frame_classification [0, 0, 0, 0] [] (by decide)).1 (by decide),
   (c8_frame_classification [0, 0, 64, 14] (List.replicate 16398 0)
     (by rw [List.length_replicate]; decide)).2.1 (by decide)⟩

/-- C3, as the code stands: `handleChoke` with a non-empty in-flight list
sets `peer_choking`, clears the list, and then indexes element 0 of the
vector it has just cleared — an out-of-bounds access, modelled as a
failing access; with an empty in-flight list it only sets
`peer_choking`. -/
theorem c3_handleChoke_out_of_bounds (st : PeerConn.State) :
    (st.inFlightRequests ≠ [] → PeerConn.handleChoke st = none) ∧
    (st.inFlightRequests = [] →
      PeerConn.handleChoke st = some { st with peerChoking := true }) := by
  constructor
  · intro h
    simp [PeerConn.handleChoke, h]
  · intro h
    simp [PeerConn.handleChoke, h]

/-- Witness for C3: the specification's choke scenario — three requests in
flight for piece 4 — makes `handleChoke` hit the out-of-bounds read. -/
theorem c3_handleChoke_out_of_bounds_witness :
    PeerConn.handleChoke PeerConn.c3Scenario = none :=
  (c3_handleChoke_out_of_bounds PeerConn.c3Scenario).1 (by decide)

/-- Counterexample for C4: in the specification's scenario (peer has
pieces {0,1,2,3}, client has none, piece_length = BLOCK_SIZE = 16384,
total_length = 65536), the action following UNCHOKE sends exactly one
REQUEST, `(0,0,16384)`, not the four requests the claim demands. -/
theorem c4_request_pipeline_counterexample :
    (PeerConn.doAction (PeerConn.handleUnchoke PeerConn.c4Scenario)).2 =
      [⟨0, 0, 16384⟩] ∧
    ([⟨0, 0, 16384⟩] : List PeerConn.PendingRequest) ≠
      [⟨0, 0, 16384⟩, ⟨1, 0, 16384⟩, ⟨2, 0, 16384⟩, ⟨3, 0, 16384⟩] := by
  constructor
  · decide
  · decide

/-- C4 as amended: (1) while the `bitfieldUpdated_` search flag is down,
`requestPiece` sends nothing; (2) the piece buffer is sized to
`piece_length` except the last piece, which gets
`total_length − index · piece_length`; (3) every REQUEST sent carries
`length = min(BLOCK_SIZE, piece_length − begin)` (the source computes the
remainder against `piece_length`, not against the piece buffer length);
(4) in the specification's scenario the action after UNCHOKE sends exactly
`(0,0,16384)` and clears the search flag, so the remaining pieces are not
requested until the peer's bitfield changes again. -/
theorem c4_request_pipeline_amended :
    (∀ st : PeerConn.State, st.bitfieldUpdated = false →
      PeerConn.requestPiece st = (st, [])) ∧
    (∀ pieceLength totalLength i : Nat,
      (i * pieceLength + pieceLength ≤ totalLength →
        PeerConn.pieceBufferSize pieceLength totalLength i = pieceLength) ∧
      (totalLength < i * pieceLength + pieceLength →
        PeerConn.pieceBufferSize pieceLength totalLength i =
          totalLength - i * pieceLength)) ∧
    (∀ st : PeerConn.State, st.currentPieceBufferSize ≤ st.pieceLength →
      ∀ req ∈ (PeerConn.requestPiece st).2,
        req.length = min BLOCK_SIZE (st.pieceLength - req.begin)) ∧
    ((PeerConn.doAction (PeerConn.handleUnchoke PeerConn.c4Scenario)).2 =
        [⟨0, 0, 16384⟩] ∧
      (PeerConn.doAction
        (PeerConn.handleUnchoke PeerConn.c4Scenario)).1.bitfieldUpdated
        = false) := by
  refine ⟨?_, ?_, ?_, by decide, by decide⟩
  · intro st h
    simp [PeerConn.requestPiece, h]
  · intro pieceLength totalLength i
    constructor
    · intro h
      unfold PeerConn.pieceBufferSize
      rw [if_neg (by omega)]
    · intro h
      unfold PeerConn.pieceBufferSize
      rw [if_pos (by omega)]
  · intro st hbuf req hreq
    by_cases hflag : st.bitfieldUpdated = false
    · rw [(by simp [PeerConn.requestPiece, hflag] :
        PeerConn.requestPiece st = (st, []))] at hreq
      exact absurd hreq (by simp)
    · have hflag' : st.bitfieldUpdated = true := by
        simpa using hflag
      have hrp : PeerConn.requestPiece st =
          PeerConn.requestPieceLoop (PeerConn.MAX_PIPELINE_SIZE + 1) st [] := by
        simp [PeerConn.requestPiece, hflag']
      rw [hrp] at hreq
      exact PeerConn.requestPieceLoop_blockLength _ st [] hbuf
        (by intro r hr; exact absurd hr (by simp)) req hreq

/-- Witness for C4 (amended): the three hypothetical clauses applied at
concrete inputs from the scenario. -/
theorem c4_request_pipeline_amended_witness :
    PeerConn.requestPiece
        { PeerConn.c4Scenario with bitfieldUpdated := false } =
      ({ PeerConn.c4Scenario with bitfieldUpdated := false }, []) ∧
    PeerConn.pieceBufferSize 16384 65536 3 = 16384 ∧
    (⟨0, 0, 16384⟩ : PeerConn.PendingRequest).length =
      min BLOCK_SIZE (PeerConn.c4Scenario.pieceLength -
        (⟨0, 0, 16384⟩ : PeerConn.PendingRequest).begin) :=
  ⟨c4_request_pipeline_amended.1
      { PeerConn.c4Scenario with bitfieldUpdated := false } rfl,
   (c4_request_pipeline_amended.2.1 16384 65536 3).1 (by decide),
   c4_request_pipeline_amended.2.2.1 PeerConn.c4Scenario (by decide)
     ⟨0, 0, 16384⟩ (by decide)⟩

/-- C2: for every storage operation on a global byte range `[g, g+L)`
(`writePiece` with `g = piece_index * piece_length`, `readBlock` with
`g = piece_index * piece_length + begin`) over a well-formed files table:
the walk transfers exactly the bytes of the range — the read returns the
`L` bytes of the concatenated file contents starting at `g` and the write
replaces exactly those bytes with the data, in order — and the operation
fails with an error whenever bytes of the range remain unmapped at the end
of the walk. -/
theorem c2_processFileRange_walk (files : List DiskTorrentStorage.FileEntry)
    (pieceLength pieceIndex begin len : Nat) (data : List Nat)
    (hwf : DiskTorrentStorage.contiguousFrom 0 files) :
    (pieceIndex * pieceLength + begin + len ≤ DiskTorrentStorage.totalLen files →
      DiskTorrentStorage.readBlock files pieceLength pieceIndex begin len =
        .ok (((DiskTorrentStorage.flattenData files).drop
          (pieceIndex * pieceLength + begin)).take len)) ∧
    (0 < len → DiskTorrentStorage.totalLen files <
        pieceIndex * pieceLength + begin + len →
      DiskTorrentStorage.readBlock files pieceLength pieceIndex begin len =
        .error "Operation incomplete") ∧
    (pieceIndex * pieceLength + data.length ≤
        DiskTorrentStorage.totalLen files →
      DiskTorrentStorage.writePiece files pieceLength pieceIndex data =
        .ok (DiskTorrentStorage.writeWalk files
          (pieceIndex * pieceLength) data).1 ∧
      DiskTorrentStorage.flattenData
          (DiskTorrentStorage.writeWalk files (pieceIndex * pieceLength) data).1 =
        (DiskTorrentStorage.flattenData files).take (pieceIndex * pieceLength) ++
          data ++ (DiskTorrentStorage.flattenData files).drop
            (pieceIndex * pieceLength + data.length) ∧
      DiskTorrentStorage.contiguousFrom 0
        (DiskTorrentStorage.writeWalk files (pieceIndex * pieceLength) data).1) ∧
    (0 < data.length → DiskTorrentStorage.totalLen files <
        pieceIndex * pieceLength + data.length →
      DiskTorrentStorage.writePiece files pieceLength pieceIndex data =
        .error "Operation incomplete") := by
  have hread := DiskTorrentStorage.readWalk_eq files 0
    (pieceIndex * pieceLength + begin) len hwf (Nat.zero_le _)
  obtain ⟨hw1, hw2, hw3⟩ := DiskTorrentStorage.writeWalk_eq files 0
    (pieceIndex * pieceLength) data hwf (Nat.zero_le _)
  rw [Nat.sub_zero, Nat.zero_add] at hread
  rw [Nat.zero_add] at hw1
  rw [Nat.sub_zero, Nat.zero_add] at hw2
  refine ⟨?_, ?_, ?_, ?_⟩
  · intro hle
    have hrem : len - (DiskTorrentStorage.totalLen files -
        (pieceIndex * pieceLength + begin)) = 0 := by omega
    rw [hrem] at hread
    simp only [DiskTorrentStorage.readBlock,
      DiskTorrentStorage.processFileRangeRead, hread]
    simp
  · intro hlen hgt
    have hrem : 0 < len - (DiskTorrentStorage.totalLen files -
        (pieceIndex * pieceLength + begin)) := by omega
    simp only [DiskTorrentStorage.readBlock,
      DiskTorrentStorage.processFileRangeRead, hread]
    rw [if_pos hrem]
  · intro hle
    refine ⟨?_, ?_, hw3⟩
    · have hrem : data.length - (DiskTorrentStorage.totalLen files -
          pieceIndex * pieceLength) = 0 := by omega
      simp only [DiskTorrentStorage.writePiece,
        DiskTorrentStorage.processFileRangeWrite, hw1, hrem]
      simp
    · rw [hw2]
      have hdata : data.take (DiskTorrentStorage.totalLen files -
          pieceIndex * pieceLength) = data :=
        List.take_of_length_le (by omega)
      rw [hdata]
  · intro hlen hgt
    have hrem : 0 < data.length - (DiskTorrentStorage.totalLen files -
        pieceIndex * pieceLength) := by omega
    simp only [DiskTorrentStorage.writePiece,
      DiskTorrentStorage.processFileRangeWrite, hw1]
    rw [if_pos hrem]

/-- Witness for C2: the multi-file layout of the specification's scenario 5
(files of lengths 10, 5 and 20, piece length 7); reading block
`(piece 2, begin 0, length 7)` returns global bytes 14..20, and writing a
7-byte piece 2 succeeds. -/
theorem c2_processFileRange_walk_witness :
    DiskTorrentStorage.readBlock
      [⟨10, 0, List.range 10⟩, ⟨5, 10, [10, 11, 12, 13, 14]⟩,
        ⟨20, 15, List.range 20⟩] 7 2 0 7 =
      .ok (((DiskTorrentStorage.flattenData
        [⟨10, 0, List.range 10⟩, ⟨5, 10, [10, 11, 12, 13, 14]⟩,
          ⟨20, 15, List.range 20⟩]).drop (2 * 7 + 0)).take 7) :=
  (c2_processFileRange_walk
    [⟨10, 0, List.range 10⟩, ⟨5, 10, [10, 11, 12, 13, 14]⟩,
      ⟨20, 15, List.range 20⟩] 7 2 0 7 []
    (by exact ⟨rfl, rfl, rfl, rfl, rfl, rfl, trivial⟩)).1 (by decide)

/-- C1: `pickPiece(peer_bitfield, my_bitfield)` returns `none` exactly when
the candidate set `S` (pieces the peer has, we lack, and not in flight) is
empty; otherwise it returns the lowest index of `S` among those whose
availability equals the minimum availability over `S`, and inserts that
index into the in-flight set before returning, so the returned index is
never a piece we have, never a piece the peer lacks, and never already in
flight.  The hypothesis bounds each availability entry by the `size_t`
range of the source. -/
theorem c1_pickPiece_rarest_first (st : PiecePicker.State) (pbf mbf : List Nat)
    (hval : ∀ i, st.pieceAvailability.getD i 0 ≤ SIZE_MAX) :
    ((PiecePicker.pickPiece st pbf mbf).1 = none ↔
      ∀ i, PiecePicker.isCandidate st pbf mbf i = false) ∧
    ∀ k, (PiecePicker.pickPiece st pbf mbf).1 = some k →
      PiecePicker.isCandidate st pbf mbf k = true ∧
      (∀ j, PiecePicker.isCandidate st pbf mbf j = true →
        st.pieceAvailability.getD k 0 ≤ st.pieceAvailability.getD j 0) ∧
      (∀ j, PiecePicker.isCandidate st pbf mbf j = true →
        st.pieceAvailability.getD j 0 = st.pieceAvailability.getD k 0 → k ≤ j) ∧
      (PiecePicker.pickPiece st pbf mbf).2.inFlightPieces = k :: st.inFlightPieces ∧
      PiecePicker.hasPiece mbf k = false ∧ PiecePicker.hasPiece pbf k = true ∧
      st.inFlightPieces.contains k = false := by
  have hinv := PiecePicker.pickFold_inv st pbf mbf hval
    st.numPiecesInTorrent (Nat.le_refl _)
  rcases hres : (List.range st.numPiecesInTorrent).foldl
      (PiecePicker.pickStep st pbf mbf) ([], SIZE_MAX) with ⟨cs, m⟩
  rw [hres] at hinv
  rcases cs with _ | ⟨k, t⟩
  · rcases hinv with ⟨_, hnone⟩
    have hp : PiecePicker.pickPiece st pbf mbf = (none, st) := by
      simp [PiecePicker.pickPiece, hres]
    refine ⟨⟨fun _ i => ?_, fun _ => by rw [hp]⟩, fun k hk => ?_⟩
    · by_cases hi : i < st.numPiecesInTorrent
      · exact hnone i hi
      · simp [PiecePicker.isCandidate, hi]
    · rw [hp] at hk
      exact absurd hk (by simp)
  · rcases hinv with ⟨_, hck, hkm, hmin, hleast⟩
    have hp : PiecePicker.pickPiece st pbf mbf
        = (some k, { st with inFlightPieces := k :: st.inFlightPieces }) := by
      simp [PiecePicker.pickPiece, hres]
    rcases (PiecePicker.isCandidate_true_iff st pbf mbf k).mp hck with
      ⟨_, hmy, hinf, hpeer⟩
    refine ⟨⟨fun h => ?_, fun hall => ?_⟩, fun k2 hk2 => ?_⟩
    · rw [hp] at h
      exact absurd h (by simp)
    · exact absurd hck (by simp [hall k])
    · rw [hp] at hk2
      have hkk : k2 = k := by simpa using hk2.symm
      subst hkk
      refine ⟨hck, ?_, ?_, by rw [hp], hmy, hpeer, hinf⟩
      · intro j hcj
        have hjlt := ((PiecePicker.isCandidate_true_iff st pbf mbf j).mp hcj).1
        rw [hkm]
        exact hmin j hjlt hcj
      · intro j hcj hjm
        have hjlt := ((PiecePicker.isCandidate_true_iff st pbf mbf j).mp hcj).1
        exact hleast j hjlt hcj (by rw [hjm, hkm])

/-- Witness for C1: availability `[2,1,2]`, peer bitfield `0xE0`, empty
local bitfield — the hypotheses hold and the theorem applies. -/
theorem c1_pickPiece_rarest_first_witness :
    (PiecePicker.pickPiece ⟨3, [2, 1, 2], []⟩ [224] [0]).1 = none ↔
      ∀ i, PiecePicker.isCandidate ⟨3, [2, 1, 2], []⟩ [224] [0] i = false :=
  (c1_pickPiece_rarest_first ⟨3, [2, 1, 2], []⟩ [224] [0]
    (fun i => by
      rcases i with _ | _ | _ | i <;> simp [List.getD, SIZE_MAX])).1

/-- C5: for every picker state whose availability entries are below the
`size_t` maximum (so the wrapping increment does not overflow) and every
bitfield `B`, `processBitfield(B)` followed by `processPeerDisconnect(B)`
restores the whole picker state (in particular the availability array) to
its prior values; moreover an availability entry that is already zero is
left at zero by `processPeerDisconnect`, whose decrement is a no-op on
zero entries. -/
theorem c5_availability_roundtrip (st : PiecePicker.State) (bf : List Nat)
    (hval : ∀ a ∈ st.pieceAvailability, a < SIZE_MAX) :
    PiecePicker.processPeerDisconnect (PiecePicker.processBitfield st bf) bf = st ∧
    ∀ i, st.pieceAvailability.getD i 0 = 0 →
      (PiecePicker.processPeerDisconnect st bf).pieceAvailability.getD i 0 = 0 := by
  constructor
  · rcases st with ⟨n, av, inflight⟩
    simp only [PiecePicker.processBitfield, PiecePicker.processPeerDisconnect,
      PiecePicker.State.mk.injEq]
    refine ⟨trivial, ?_, trivial⟩
    apply List.ext_getElem?
    intro j
    rw [PiecePicker.decAvail_getElem? bf n (PiecePicker.bumpAvail bf n av) j,
      PiecePicker.bumpAvail_getElem? bf n av j]
    by_cases hc : j < n ∧ PiecePicker.hasPiece bf j = true
    · rw [if_pos hc]
      rcases hx : av[j]? with _ | x
      · simp [hx]
      · have hxlt : x < SIZE_MAX := hval x (List.getElem?_mem hx)
        have hmod : (x + 1) % 18446744073709551616 = x + 1 := by
          unfold SIZE_MAX at hxlt
          omega
        simp [hx, hc, hmod]
    · rw [if_neg hc]
      have hng : ¬ (j < n ∧ PiecePicker.hasPiece bf j = true ∧
          0 < av[j]?.getD 0) := by
        rintro ⟨h1, h2, _⟩; exact hc ⟨h1, h2⟩
      rw [if_neg hng]
  · intro i hz
    rcases st with ⟨n, av, inflight⟩
    simp only [PiecePicker.processPeerDisconnect] at *
    rw [List.getD_eq_getElem?_getD, PiecePicker.decAvail_getElem? bf n av i]
    have h0 : av[i]?.getD 0 = 0 := by
      rw [← List.getD_eq_getElem?_getD]; exact hz
    have hng : ¬ (i < n ∧ PiecePicker.hasPiece bf i = true ∧
        0 < av[i]?.getD 0) := by
      rintro ⟨_, _, h3⟩; omega
    rw [if_neg hng, ← List.getD_eq_getElem?_getD]
    exact hz

/-- Witness for C5: a two-piece picker with availability `[0,3]` and the
bitfield `0xC0`; the round trip restores the state and the zero entry
stays zero. -/
theorem c5_availability_roundtrip_witness :
    PiecePicker.processPeerDisconnect
        (PiecePicker.processBitfield ⟨2, [0, 3], []⟩ [192]) [192] = ⟨2, [0, 3], []⟩ ∧
    (PiecePicker.processPeerDisconnect ⟨2, [0, 3], []⟩ [192]).pieceAvailability.getD 0 0 = 0 :=
  ⟨(c5_availability_roundtrip ⟨2, [0, 3], []⟩ [192] (by decide)).1,
   (c5_availability_roundtrip ⟨2, [0, 3], []⟩ [192] (by decide)).2 0 (by decide)⟩

end GoTorrent

